import Mathlib

/-!
Verification of the `rxor-tools` crate (repeating XOR cipher toolset).

Modelling conventions.
* A Rust `u8` is a `ℕ`; byte buffers (`Raw`) are `List ℕ` whose elements are
  assumed `< 256` where it matters.
* A Rust `char` is its Unicode code point as a `ℕ`; a `String` is the list of
  code points of its characters.  `String::into_bytes` is UTF-8 encoding of
  those code points (`utf8Bytes`).
* The `f32` distances in `find_key_len` are modelled exactly: a finite value
  `hamming / (8*len)` is the pair `(hamming, 8*len)` and `f32::INFINITY` is
  `none`; `<` on these scores is cross-multiplication.  All concrete scores we
  reason about (`0.0` and `INFINITY`) are exactly representable in `f32`, so
  the model and the code agree on every comparison appearing in a theorem.
* Rust panics (index out of bounds, `%` by zero) are modelled either by a
  total function together with the hypothesis that rules the panic out, or by
  an `Option`-valued variant (`xorChecked`) where the panic itself is the
  subject of a claim.
-/

set_option maxRecDepth 8000
set_option linter.unusedVariables false

namespace RxorTools

/-- UTF-8 byte sequence of a single code point; models what
`String::into_bytes` produces for each `char`. -/
def utf8Bytes (c : ℕ) : List ℕ :=
  if c < 128 then [c]
  else if c < 2048 then [192 + c / 64, 128 + c % 64]
  else if c < 65536 then [224 + c / 4096, 128 + (c / 64) % 64, 128 + c % 64]
  else [240 + c / 262144, 128 + (c / 4096) % 64, 128 + (c / 64) % 64, 128 + c % 64]

/-- Fuel-indexed binary digit sum, used to define `popCount` structurally. -/
def popCountAux : ℕ → ℕ → ℕ
  | 0, _ => 0
  | fuel + 1, n => if n = 0 then 0 else n % 2 + popCountAux fuel (n / 2)

/-- Number of set bits of a natural number (mathematical popcount, used to
state the specification of `Raw::hamming`). -/
def popCount (n : ℕ) : ℕ := popCountAux n n

namespace Raw

/-- `Raw::hamming`: bit-level Hamming distance, folding over the zipped
byte pairs and over bit positions `0..8`. -/
def hamming (a b : List ℕ) : ℕ :=
  (a.zip b).foldl (fun d p =>
    (List.range 8).foldl (fun d2 k =>
      if p.1 &&& (1 <<< k) ≠ p.2 &&& (1 <<< k) then d2 + 1 else d2) d) 0

/-- `Raw::hamming_normalized`: the `f32` value `hamming / (8 * self.len())`,
modelled as the exact fraction (numerator, denominator). -/
def hamming_normalized (a b : List ℕ) : ℕ × ℕ :=
  (hamming a b, 8 * a.length)

end Raw

/-- A key-length score: `none` is `f32::INFINITY`, `some (n, d)` the exact
finite value `n / d`. -/
def scoreLt : Option (ℕ × ℕ) → Option (ℕ × ℕ) → Bool
  | none, _ => false
  | some _, none => true
  | some p, some q => decide (p.1 * q.2 < q.1 * p.2)

/-- Loop body of `xor` (total model): `ki` is the cyclic key index.  The key
access `key[ki]` is modelled by `getD`; every call site keeps `ki <
key.length` when `key ≠ []`, matching the panic-free executions of the code. -/
def xorGo (key : List ℕ) : List ℕ → ℕ → List ℕ
  | [], _ => []
  | s :: rest, ki => (s ^^^ key.getD ki 0) :: xorGo key rest ((ki + 1) % key.length)

/-- `xor`: repeating-key XOR of a sequence against a cyclical key. -/
def xor (seq key : List ℕ) : List ℕ := xorGo key seq 0

/-- Panic-aware loop body of `xor`: `none` models the fatal index-out-of-range
access `key[ki]` (which is hit exactly when the key is empty). -/
def xorCheckedGo (key : List ℕ) : List ℕ → ℕ → Option (List ℕ)
  | [], _ => some []
  | s :: rest, ki =>
    if h : ki < key.length then
      match xorCheckedGo key rest ((ki + 1) % key.length) with
      | some r => some ((s ^^^ key.get ⟨ki, h⟩) :: r)
      | none => none
    else none

/-- Panic-aware model of `xor`. -/
def xorChecked (seq key : List ℕ) : Option (List ℕ) := xorCheckedGo key seq 0

/-- Distance assigned to candidate key length `n` in `find_key_len`:
infinite when fewer than two blocks fit, otherwise the normalized Hamming
distance of the first two `n`-byte blocks. -/
def keyLenScore (raw : List ℕ) (n : ℕ) : Option (ℕ × ℕ) :=
  if raw.length / n < 2 then none
  else some (Raw.hamming_normalized (raw.take n) ((raw.drop n).take n))

/-- Inner scan of `find_key_len`: fold over `(i, d)` in `distances.enumerate()`,
keeping `best = (score, i + llim)` when `d < best.0` and `i` is not contained
in `guesses`. -/
def scanGo (guesses : List ℕ) (llim : ℕ) :
    List (Option (ℕ × ℕ)) → ℕ → Option (ℕ × ℕ) × ℕ → Option (ℕ × ℕ) × ℕ
  | [], _, best => best
  | d :: rest, i, best =>
    scanGo guesses llim rest (i + 1)
      (if scoreLt d best.1 && !(guesses.contains i) then (d, i + llim) else best)

/-- Outer selection loop of `find_key_len`: `top_n` rounds, each pushing the
scan result (initial best `(INFINITY, 0)`) onto `guesses`. -/
def selectGo (distances : List (Option (ℕ × ℕ))) (llim : ℕ) : ℕ → List ℕ → List ℕ
  | 0, guesses => guesses
  | k + 1, guesses =>
    let best := scanGo guesses llim distances 0 (none, 0)
    selectGo distances llim k (guesses ++ [best.2])

/-- `find_key_len`: guess the key length of an encrypted sequence.  `top_n`
is the `f32` expression `((hlim - llim) * 0.05).max(1.0) as usize`, which for
every argument below `2^24` equals `max ((hlim - llim) / 20) 1` exactly.  The
`assert!(llim <= hlim)` and the division-by-zero panic at `n = 0` are carried
as hypotheses (`llim ≤ hlim`, `1 ≤ llim`) by the theorems. -/
def find_key_len (raw : List ℕ) (llim hlim : ℕ) : List ℕ :=
  let distances := (List.range (hlim + 1 - llim)).map (fun k => keyLenScore raw (llim + k))
  let top_n := Nat.max ((hlim - llim) / 20) 1
  selectGo distances llim top_n []

namespace Ascii

/-- `Ascii::encode`: pushes each byte `b` as the character `b as char`, whose
code point is the byte value itself. -/
def encode (this : List ℕ) : List ℕ := this.map (fun b => b)

/-- `Ascii::decode`: `String::into_bytes`, i.e. the concatenated UTF-8
encodings of the characters. -/
def decode (s : List ℕ) : List ℕ := (s.map utf8Bytes).flatten

end Ascii

namespace Hex

/-- `Hex::is`: hex digit test on a character. -/
def is (c : ℕ) : Bool :=
  (97 ≤ c && c ≤ 102) || (65 ≤ c && c ≤ 70) || (48 ≤ c && c ≤ 57)

/-- `Hex::string_is`: the validation loop (early exit on the first bad
character). -/
def string_is : List ℕ → Bool
  | [] => true
  | c :: rest => if is c then string_is rest else false

/-- `Hex::to_u8`: digit value of a hex character; the panicking branch is
unreachable for validated input and modelled by `0`. -/
def to_u8 (c : ℕ) : ℕ :=
  if 97 ≤ c ∧ c ≤ 102 then c - 97 + 10
  else if 65 ≤ c ∧ c ≤ 70 then c - 65 + 10
  else if 48 ≤ c ∧ c ≤ 57 then c - 48
  else 0

/-- `Hex::from_u8`: lowercase hex digit for a nibble value. -/
def from_u8 (u : ℕ) : ℕ :=
  if u < 10 then u + 48 else u - 10 + 97

/-- Loop of `Hex::decode`: pairs of characters become bytes; returns the
emitted bytes together with the final `word` register. -/
def decodeGo : List ℕ → ℕ → ℕ → List ℕ × ℕ
  | [], _, word => ([], word)
  | c :: rest, i, word =>
    let bits := to_u8 c
    if i % 2 = 0 then
      decodeGo rest (i + 1) (bits <<< 4)
    else
      let r := decodeGo rest (i + 1) word
      ((word ||| bits) :: r.1, r.2)

/-- `Hex::decode`: pairwise nibble packing; an odd-length input additionally
emits the final half-filled `word`. -/
def decode (s : List ℕ) : List ℕ :=
  let r := decodeGo s 0 0
  if s.length % 2 = 1 then r.1 ++ [r.2] else r.1

/-- `Hex::encode`: two lowercase digits per byte, high nibble first. -/
def encode : List ℕ → List ℕ
  | [] => []
  | b :: rest => from_u8 ((b &&& 240) >>> 4) :: from_u8 (b &&& 15) :: encode rest

end Hex

namespace Base64

/-- `Base64::is`: base64 alphabet test (including the pad `=`, code 61). -/
def is (c : ℕ) : Bool :=
  (48 ≤ c && c ≤ 57) || (97 ≤ c && c ≤ 122) || (65 ≤ c && c ≤ 90) ||
    (c = 43) || (c = 47) || (c = 61)

/-- `Base64::is_string`: the validation loop. -/
def is_string : List ℕ → Bool
  | [] => true
  | c :: rest => if is c then is_string rest else false

/-- `Base64::from_u8`: the character map `['A'..='Z'] ++ ['a'..='z'] ++
['0'..='9'] ++ ['+', '/']`, indexed by the 6-bit value; the out-of-range
panic of `map[u]` is modelled by the default `0`. -/
def from_u8 (u : ℕ) : ℕ :=
  (((List.range 26).map (fun i => 65 + i)) ++
   ((List.range 26).map (fun i => 97 + i)) ++
   ((List.range 10).map (fun i => 48 + i)) ++ [43, 47]).getD u 0

/-- `Base64::to_u8`: 6-bit value of a base64 character (`=` maps to 0); the
panicking branch is unreachable for validated input and modelled by `0`. -/
def to_u8 (c : ℕ) : ℕ :=
  if 65 ≤ c ∧ c ≤ 90 then c - 65
  else if 97 ≤ c ∧ c ≤ 122 then c - 97 + 26
  else if 48 ≤ c ∧ c ≤ 57 then c - 48 + 52
  else if c = 43 then 62
  else if c = 47 then 63
  else if c = 61 then 0
  else 0

/-- Loop of `Base64::decode`: the bit offset cycles `0 → 6 → 4 → 2 → 0`;
the loop breaks at the first `=` (code 61); the final `else` models the
unreachable panicking arm. -/
def decodeGo : List ℕ → ℕ → ℕ → List ℕ
  | [], _, _ => []
  | c :: rest, bit_index, working_byte =>
    if c = 61 then []
    else
      let six_bits := to_u8 c
      if bit_index = 0 then
        decodeGo rest ((bit_index + 6) % 8) (six_bits <<< 2)
      else if bit_index = 6 then
        (working_byte ||| ((six_bits &&& 48) >>> 4)) ::
          decodeGo rest ((bit_index + 6) % 8) ((six_bits &&& 15) <<< 4)
      else if bit_index = 4 then
        (working_byte ||| ((six_bits &&& 60) >>> 2)) ::
          decodeGo rest ((bit_index + 6) % 8) ((six_bits &&& 3) <<< 6)
      else if bit_index = 2 then
        (working_byte ||| (six_bits &&& 63)) ::
          decodeGo rest ((bit_index + 6) % 8) (working_byte ||| (six_bits &&& 63))
      else []

/-- `Base64::decode`. -/
def decode (s : List ℕ) : List ℕ := decodeGo s 0 0

/-- Loop of `Base64::encode`: the bit offset (mod 6) cycles `0 → 2 → 4 → 0`;
returns the emitted characters together with the final `buffer`; the final
`else` models the unreachable panicking arm. -/
def encodeGo : List ℕ → ℕ → ℕ → List ℕ × ℕ
  | [], _, buffer => ([], buffer)
  | byte :: rest, bit_index, buffer =>
    if bit_index % 6 = 0 then
      let r := encodeGo rest (bit_index + 8) ((byte &&& 3) <<< 4)
      (from_u8 (byte >>> 2) :: r.1, r.2)
    else if bit_index % 6 = 2 then
      let r := encodeGo rest (bit_index + 8) ((byte &&& 15) <<< 2)
      (from_u8 (buffer ||| (byte >>> 4)) :: r.1, r.2)
    else if bit_index % 6 = 4 then
      let r := encodeGo rest (bit_index + 8) buffer
      (from_u8 (buffer ||| (byte >>> 6)) :: from_u8 (byte &&& 63) :: r.1, r.2)
    else ([], buffer)

/-- `Base64::encode`: the bit-regrouping loop followed by the flush of the
leftover buffer and `padding_bits / 2` pad characters. -/
def encode (this : List ℕ) : List ℕ :=
  let r := encodeGo this 0 0
  let starting_bits := this.length * 8
  let total_b64 := (starting_bits + 5) / 6
  let padding_bits := total_b64 * 6 - starting_bits
  if padding_bits ≠ 0 then
    r.1 ++ [from_u8 r.2] ++ List.replicate (padding_bits / 2) 61
  else r.1

end Base64

/-! ### Helper lemmas -/

lemma mem_of_getLast?_eq_some {α : Type _} :
    ∀ {l : List α} {a : α}, l.getLast? = some a → a ∈ l := by
  intro l
  induction l with
  | nil => intro a h; simp [List.getLast?] at h
  | cons x rest ih =>
    intro a h
    cases rest with
    | nil => simp [List.getLast?] at h; simp [h]
    | cons y ys =>
      rw [List.getLast?_cons_cons] at h
      exact List.mem_cons_of_mem _ (ih h)

/-! #### XOR cipher -/

lemma xorGo_xorGo (k : List ℕ) : ∀ (s : List ℕ) (ki : ℕ),
    xorGo k (xorGo k s ki) ki = s := by
  intro s
  induction s with
  | nil => intro ki; rfl
  | cons x rest ih =>
    intro ki
    simp only [xorGo, Nat.xor_cancel_right, List.cons.injEq]
    exact ⟨trivial, ih _⟩

/-- C2: for every byte buffer `s` and every non-empty key `k`, repeating-key
XOR is an involution: `xor (xor s k) k = s`. -/
theorem xor_involution (s k : List ℕ) (hk : k ≠ []) : xor (xor s k) k = s :=
  xorGo_xorGo k s 0

/-- Witness for `xor_involution` at `s = [5, 6, 7]`, `k = [1, 2]`. -/
theorem xor_involution_witness :
    ([1, 2] : List ℕ) ≠ [] ∧ xor (xor [5, 6, 7] [1, 2]) [1, 2] = [5, 6, 7] :=
  ⟨by decide, xor_involution [5, 6, 7] [1, 2] (by decide)⟩

/-- C9: `xor` on the empty sequence completes without failure for every key,
the empty key included, and the fatal empty-key access is triggered exactly
when the sequence is non-empty. -/
theorem xor_empty_seq_safe :
    (∀ k : List ℕ, xorChecked [] k = some []) ∧
      (∀ s : List ℕ, (xorChecked s [] = none ↔ s ≠ [])) := by
  constructor
  · intro k; rfl
  · intro s
    cases s with
    | nil => simp [xorChecked, xorCheckedGo]
    | cons x rest => simp [xorChecked, xorCheckedGo]

/-! #### ASCII codec -/

lemma ascii_decode_encode_low : ∀ (l : List ℕ), (∀ b ∈ l, b < 128) →
    Ascii.decode (Ascii.encode l) = l := by
  intro l
  induction l with
  | nil => intro _; rfl
  | cons x rest ih =>
    intro h
    have hx : x < 128 := h x (List.mem_cons_self _ _)
    simp only [Ascii.encode, Ascii.decode, List.map_map, List.map_cons,
      List.flatten_cons] at *
    rw [utf8Bytes, if_pos hx]
    have := ih (fun b hb => h b (List.mem_cons_of_mem _ hb))
    simpa [Ascii.encode, Ascii.decode] using this

/-- C4 counterexample: the byte buffer `[128]` ASCII-encodes to the character
`U+0080`, whose UTF-8 byte representation is `[194, 128]`, so the round trip
does not return `[128]`. -/
theorem ascii_roundtrip_counterexample :
    Ascii.decode (Ascii.encode [128]) = [194, 128] ∧
      Ascii.decode (Ascii.encode [128]) ≠ [128] := by
  constructor <;> decide

/-- C4 (amended): ASCII decoding the ASCII encoding of `b` yields `b` again
for byte buffers all of whose bytes are below 128. -/
theorem ascii_decode_encode (b : List ℕ) (h : ∀ x ∈ b, x < 128) :
    Ascii.decode (Ascii.encode b) = b :=
  ascii_decode_encode_low b h

/-- Witness for `ascii_decode_encode` at `b = [72, 105]`. -/
theorem ascii_decode_encode_witness :
    (∀ x ∈ ([72, 105] : List ℕ), x < 128) ∧
      Ascii.decode (Ascii.encode [72, 105]) = [72, 105] :=
  ⟨by decide, ascii_decode_encode [72, 105] (by decide)⟩

/-! #### Hex codec -/

lemma hex_is_lt (c : ℕ) (h : Hex.is c = true) : c < 103 := by
  simp only [Hex.is, Bool.or_eq_true, Bool.and_eq_true, decide_eq_true_eq] at h
  omega

lemma hex_to_u8_lt : ∀ c < 103, Hex.is c = true → Hex.to_u8 c < 16 := by decide

lemma hex_round : ∀ c < 103, Hex.is c = true → ¬(65 ≤ c ∧ c ≤ 70) →
    Hex.from_u8 (Hex.to_u8 c) = c := by decide

lemma hex_pack : ∀ x < 16, ∀ y < 16,
    ((x <<< 4 ||| y) &&& 240) >>> 4 = x ∧ (x <<< 4 ||| y) &&& 15 = y := by decide

lemma hex_nibble : ∀ x < 16,
    (x <<< 4) >>> 4 = x ∧ (x <<< 4) &&& 15 = 0 ∧ Hex.is (Hex.from_u8 x) = true := by
  decide

lemma hex_string_is_cons {c : ℕ} {l : List ℕ} (h : Hex.string_is (c :: l) = true) :
    Hex.is c = true ∧ Hex.string_is l = true := by
  by_cases hx : Hex.is c = true
  · exact ⟨hx, by rwa [Hex.string_is, if_pos hx] at h⟩
  · rw [Hex.string_is, if_neg hx] at h
    exact absurd h (by simp)

lemma hex_string_is_mem : ∀ (l : List ℕ), Hex.string_is l = true →
    ∀ c ∈ l, Hex.is c = true := by
  intro l
  induction l with
  | nil => intro _ c hc; simp at hc
  | cons x rest ih =>
    intro h c hc
    rcases List.mem_cons.mp hc with rfl | hm
    · exact (hex_string_is_cons h).1
    · exact ih (hex_string_is_cons h).2 c hm

lemma hex_string_is_of_all : ∀ (l : List ℕ), (∀ c ∈ l, Hex.is c = true) →
    Hex.string_is l = true := by
  intro l
  induction l with
  | nil => intro _; rfl
  | cons x rest ih =>
    intro h
    rw [Hex.string_is, if_pos (h x (List.mem_cons_self _ _))]
    exact ih (fun c hc => h c (List.mem_cons_of_mem _ hc))

lemma hexDecodeGo_mod : ∀ (l : List ℕ) (i j w : ℕ), i % 2 = j % 2 →
    Hex.decodeGo l i w = Hex.decodeGo l j w := by
  intro l
  induction l with
  | nil => intros; rfl
  | cons c rest ih =>
    intro i j w h
    have h1 : (i + 1) % 2 = (j + 1) % 2 := by omega
    by_cases hi : i % 2 = 0
    · have hj : j % 2 = 0 := by omega
      simp only [Hex.decodeGo, if_pos hi, if_pos hj]
      exact ih _ _ _ h1
    · have hj : ¬ j % 2 = 0 := by omega
      simp only [Hex.decodeGo, if_neg hi, if_neg hj]
      rw [ih _ _ w h1]

lemma hexDecodeGo_fst_w (l : List ℕ) (i w w' : ℕ) (h : i % 2 = 0) :
    (Hex.decodeGo l i w).1 = (Hex.decodeGo l i w').1 := by
  cases l with
  | nil => rfl
  | cons c rest => simp only [Hex.decodeGo, if_pos h]

lemma hexDecodeGo_fst_len : ∀ (l : List ℕ) (i w : ℕ),
    (Hex.decodeGo l i w).1.length = (l.length + i % 2) / 2 := by
  intro l
  induction l with
  | nil =>
    intro i w
    simp only [Hex.decodeGo, List.length_nil]
    omega
  | cons c rest ih =>
    intro i w
    by_cases hi : i % 2 = 0
    · simp only [Hex.decodeGo, if_pos hi, List.length_cons]
      rw [ih]
      omega
    · simp only [Hex.decodeGo, if_neg hi, List.length_cons]
      rw [ih]
      omega

lemma hexDecodeGo_snd_last : ∀ (l : List ℕ) (i w c : ℕ), (i + l.length) % 2 = 1 →
    l.getLast? = some c → (Hex.decodeGo l i w).2 = Hex.to_u8 c <<< 4 := by
  intro l
  induction l with
  | nil => intro i w c h hl; simp at hl
  | cons c0 rest ih =>
    intro i w c h hl
    by_cases hi : i % 2 = 0
    · simp only [Hex.decodeGo, if_pos hi]
      cases rest with
      | nil =>
        simp only [List.getLast?_singleton, Option.some.injEq] at hl
        subst hl
        rfl
      | cons c1 cs =>
        have hl' : (c1 :: cs).getLast? = some c := by
          rwa [List.getLast?_cons_cons] at hl
        refine ih (i + 1) _ c ?_ hl'
        simp only [List.length_cons] at h ⊢
        omega
    · simp only [Hex.decodeGo, if_neg hi]
      cases rest with
      | nil =>
        exfalso
        simp only [List.length_cons, List.length_nil] at h
        omega
      | cons c1 cs =>
        have hl' : (c1 :: cs).getLast? = some c := by
          rwa [List.getLast?_cons_cons] at hl
        refine ih (i + 1) w c ?_ hl'
        simp only [List.length_cons] at h ⊢
        omega

lemma hex_decode_cons2 (c0 c1 : ℕ) (rest : List ℕ) (h : rest.length % 2 = 0) :
    Hex.decode (c0 :: c1 :: rest) =
      (Hex.to_u8 c0 <<< 4 ||| Hex.to_u8 c1) :: Hex.decode rest := by
  unfold Hex.decode
  simp only [List.length_cons]
  rw [if_neg (by omega), if_neg (by omega)]
  show (Hex.decodeGo (c0 :: c1 :: rest) 0 0).1 = _
  simp only [Hex.decodeGo]
  norm_num
  rw [hexDecodeGo_mod rest 2 0 (Hex.to_u8 c0 <<< 4) (by norm_num),
    hexDecodeGo_fst_w rest 0 (Hex.to_u8 c0 <<< 4) 0 (by norm_num)]

lemma hex_encode_decode_aux : ∀ (l : List ℕ), Hex.string_is l = true →
    (∀ c ∈ l, ¬(65 ≤ c ∧ c ≤ 70)) → l.length % 2 = 0 →
    Hex.encode (Hex.decode l) = l
  | [], _, _, _ => rfl
  | [c], _, _, he => by simp at he
  | c0 :: c1 :: rest, hv, hl, he => by
    obtain ⟨h0, hv1⟩ := hex_string_is_cons hv
    obtain ⟨h1, hv2⟩ := hex_string_is_cons hv1
    have hr : rest.length % 2 = 0 := by
      simp only [List.length_cons] at he
      omega
    have ht0 : Hex.to_u8 c0 < 16 := hex_to_u8_lt c0 (hex_is_lt c0 h0) h0
    have ht1 : Hex.to_u8 c1 < 16 := hex_to_u8_lt c1 (hex_is_lt c1 h1) h1
    rw [hex_decode_cons2 c0 c1 rest hr]
    show Hex.from_u8 _ :: Hex.from_u8 _ :: Hex.encode (Hex.decode rest) = _
    rw [(hex_pack _ ht0 _ ht1).1, (hex_pack _ ht0 _ ht1).2,
      hex_round c0 (hex_is_lt c0 h0) h0 (hl c0 (by simp)),
      hex_round c1 (hex_is_lt c1 h1) h1 (hl c1 (by simp)),
      hex_encode_decode_aux rest hv2 (fun c hc => hl c (by simp [hc])) hr]
termination_by l => l.length

/-- C3 counterexample: the uppercase text `"AB"` (even length) and the
odd-length text `"abc"` are both valid hex texts on which
`Hex::encode (Hex::decode t)` differs from `t` (the code re-encodes to
lowercase, and pads an odd tail with a zero nibble). -/
theorem hex_roundtrip_counterexample :
    Hex.string_is [65, 66] = true ∧ Hex.encode (Hex.decode [65, 66]) ≠ [65, 66] ∧
      Hex.string_is [97, 98, 99] = true ∧
      Hex.encode (Hex.decode [97, 98, 99]) ≠ [97, 98, 99] := by
  refine ⟨by decide, by decide, by decide, by decide⟩

/-- C3 (amended): for every valid hex text of even length containing no
uppercase letters, encoding the decoded bytes returns the original text. -/
theorem hex_encode_decode (t : List ℕ) (hv : Hex.string_is t = true)
    (hlow : ∀ c ∈ t, ¬(65 ≤ c ∧ c ≤ 70)) (heven : t.length % 2 = 0) :
    Hex.encode (Hex.decode t) = t :=
  hex_encode_decode_aux t hv hlow heven

/-- Witness for `hex_encode_decode` at `t = "ab"`. -/
theorem hex_encode_decode_witness :
    (Hex.string_is [97, 98] = true ∧ (∀ c ∈ ([97, 98] : List ℕ), ¬(65 ≤ c ∧ c ≤ 70)) ∧
      ([97, 98] : List ℕ).length % 2 = 0) ∧
      Hex.encode (Hex.decode [97, 98]) = [97, 98] :=
  ⟨⟨by decide, by decide, by decide⟩,
    hex_encode_decode [97, 98] (by decide) (by decide) (by decide)⟩

/-- C7: a valid hex text of odd length `2k+1` decodes to `k+1` bytes whose
last byte carries the final digit in its high nibble and zero in its low
nibble; in particular `"abc"` decodes to `[0xab, 0xc0]`. -/
theorem hex_decode_odd (t : List ℕ) (hv : Hex.string_is t = true)
    (hodd : t.length % 2 = 1) :
    (Hex.decode t).length = t.length / 2 + 1 ∧
      (∀ c, t.getLast? = some c →
        (Hex.decode t).getLast? = some (Hex.to_u8 c <<< 4) ∧
          (Hex.to_u8 c <<< 4) >>> 4 = Hex.to_u8 c ∧
          (Hex.to_u8 c <<< 4) &&& 15 = 0) ∧
      Hex.decode [97, 98, 99] = [171, 192] := by
  refine ⟨?_, ?_, by decide⟩
  · unfold Hex.decode
    rw [if_pos hodd]
    simp only [List.length_append, List.length_singleton, hexDecodeGo_fst_len]
    omega
  · intro c hc
    have hmem := mem_of_getLast?_eq_some hc
    have his : Hex.is c = true := hex_string_is_mem t hv c hmem
    have hlt : c < 103 := hex_is_lt c his
    have ht : Hex.to_u8 c < 16 := hex_to_u8_lt c hlt his
    refine ⟨?_, (hex_nibble _ ht).1, (hex_nibble _ ht).2.1⟩
    unfold Hex.decode
    rw [if_pos hodd, List.getLast?_concat]
    congr 1
    exact hexDecodeGo_snd_last t 0 0 c (by omega) hc

/-- Witness for `hex_decode_odd` at `t = "abc"`. -/
theorem hex_decode_odd_witness :
    (Hex.string_is [97, 98, 99] = true ∧ ([97, 98, 99] : List ℕ).length % 2 = 1) ∧
      (Hex.decode [97, 98, 99]).length = ([97, 98, 99] : List ℕ).length / 2 + 1 := by
  refine ⟨⟨by decide, by decide⟩, ?_⟩
  exact (hex_decode_odd [97, 98, 99] (by decide) (by decide)).1

/-! #### Hamming distance -/

lemma foldl_count (q : ℕ → Prop) [DecidablePred q] :
    ∀ (L : List ℕ) (d : ℕ),
      L.foldl (fun acc k => if q k then acc + 1 else acc) d =
        d + L.countP (fun k => decide (q k)) := by
  intro L
  induction L with
  | nil => intro d; simp
  | cons x rest ih =>
    intro d
    simp only [List.foldl_cons, List.countP_cons, ih]
    by_cases hx : q x
    · simp [hx]
      omega
    · simp [hx]

lemma hamming_foldl : ∀ (zs : List (ℕ × ℕ)) (d : ℕ),
    zs.foldl (fun d p =>
      (List.range 8).foldl (fun d2 k =>
        if p.1 &&& (1 <<< k) ≠ p.2 &&& (1 <<< k) then d2 + 1 else d2) d) d =
    d + (zs.map (fun p =>
      (List.range 8).countP
        (fun k => decide (p.1 &&& (1 <<< k) ≠ p.2 &&& (1 <<< k))))).sum := by
  intro zs
  induction zs with
  | nil => intro d; simp
  | cons p rest ih =>
    intro d
    simp only [List.foldl_cons, List.map_cons, List.sum_cons]
    rw [foldl_count (fun k => p.1 &&& (1 <<< k) ≠ p.2 &&& (1 <<< k)), ih]
    omega

lemma hamming_eq_countP_sum (a b : List ℕ) :
    Raw.hamming a b = ((a.zip b).map (fun p =>
      (List.range 8).countP
        (fun k => decide (p.1 &&& (1 <<< k) ≠ p.2 &&& (1 <<< k))))).sum := by
  unfold Raw.hamming
  rw [hamming_foldl]
  omega

lemma count_one_bits : ∀ z < 256,
    (List.range 8).countP (fun k => decide (z &&& (1 <<< k) ≠ 0)) = popCount z := by
  decide

lemma count_diff_popCount : ∀ x < 256, ∀ y < 256,
    (List.range 8).countP (fun k => decide (x &&& (1 <<< k) ≠ y &&& (1 <<< k))) =
      popCount (x ^^^ y) := by
  intro x hx y hy
  have hxy : x ^^^ y < 256 := by
    have h8 : (256 : ℕ) = 2 ^ 8 := by norm_num
    rw [h8] at hx hy ⊢
    exact Nat.xor_lt_two_pow hx hy
  have h1 : ∀ k, (x &&& (1 <<< k) ≠ y &&& (1 <<< k)) ↔ ((x ^^^ y) &&& (1 <<< k) ≠ 0) := by
    intro k
    rw [Nat.and_xor_distrib_right]
    constructor
    · intro h hz
      exact h (Nat.xor_eq_zero.mp hz)
    · intro h heq
      rw [heq, Nat.xor_self] at h
      exact h rfl
  have hcong :
      (List.range 8).countP (fun k => decide (x &&& (1 <<< k) ≠ y &&& (1 <<< k))) =
        (List.range 8).countP (fun k => decide ((x ^^^ y) &&& (1 <<< k) ≠ 0)) :=
    List.countP_congr (fun k _ => by simp only [decide_eq_true_eq]; exact h1 k)
  rw [hcong]
  exact count_one_bits (x ^^^ y) hxy

lemma hamming_popCount_aux : ∀ (a b : List ℕ), (∀ x ∈ a, x < 256) → (∀ y ∈ b, y < 256) →
    Raw.hamming a b =
      ∑ i ∈ Finset.range (min a.length b.length), popCount (a.getD i 0 ^^^ b.getD i 0) := by
  intro a
  induction a with
  | nil =>
    intro b _ _
    simp [Raw.hamming]
  | cons x a' ih =>
    intro b hx hy
    cases b with
    | nil => simp [Raw.hamming]
    | cons y b' =>
      have hcons : Raw.hamming (x :: a') (y :: b') =
          (List.range 8).countP
            (fun k => decide (x &&& (1 <<< k) ≠ y &&& (1 <<< k))) + Raw.hamming a' b' := by
        rw [hamming_eq_countP_sum, hamming_eq_countP_sum, List.zip_cons_cons,
          List.map_cons, List.sum_cons]
      rw [hcons,
        count_diff_popCount x (hx x (List.mem_cons_self _ _)) y (hy y (List.mem_cons_self _ _)),
        ih b' (fun z hz => hx z (List.mem_cons_of_mem _ hz))
          (fun z hz => hy z (List.mem_cons_of_mem _ hz))]
      simp only [List.length_cons, Nat.succ_min_succ, Finset.sum_range_succ',
        List.getD_cons_succ, List.getD_cons_zero]
      omega

/-- C8: `hamming a b` equals the sum, over indices below the length of the
shorter buffer, of the popcount of `a[i] XOR b[i]`; trailing bytes of the
longer buffer contribute nothing. -/
theorem hamming_eq_popCount_sum (a b : List ℕ)
    (ha : ∀ x ∈ a, x < 256) (hb : ∀ x ∈ b, x < 256) :
    Raw.hamming a b =
      ∑ i ∈ Finset.range (min a.length b.length), popCount (a.getD i 0 ^^^ b.getD i 0) :=
  hamming_popCount_aux a b ha hb

/-- Witness for `hamming_eq_popCount_sum` at `a = [171, 5, 9]`, `b = [3, 5]`. -/
theorem hamming_eq_popCount_sum_witness :
    ((∀ x ∈ ([171, 5, 9] : List ℕ), x < 256) ∧ (∀ x ∈ ([3, 5] : List ℕ), x < 256)) ∧
      Raw.hamming [171, 5, 9] [3, 5] =
        ∑ i ∈ Finset.range (min ([171, 5, 9] : List ℕ).length ([3, 5] : List ℕ).length),
          popCount (([171, 5, 9] : List ℕ).getD i 0 ^^^ ([3, 5] : List ℕ).getD i 0) :=
  ⟨⟨by decide, by decide⟩, hamming_eq_popCount_sum [171, 5, 9] [3, 5] (by decide) (by decide)⟩

/-! #### Base64 codec -/

lemma or_lt_64 {x y : ℕ} (hx : x < 64) (hy : y < 64) : x ||| y < 64 := by
  have h6 : (64 : ℕ) = 2 ^ 6 := by norm_num
  rw [h6] at hx hy ⊢
  exact Nat.or_lt_two_pow hx hy

lemma b64_map_spec : ∀ u < 64,
    Base64.to_u8 (Base64.from_u8 u) = u ∧ Base64.from_u8 u ≠ 61 ∧
      Base64.is (Base64.from_u8 u) = true := by decide

lemma b64_bounds : ∀ b < 256,
    b >>> 2 < 64 ∧ b &&& 3 < 4 ∧ b >>> 4 < 16 ∧ b &&& 15 < 16 ∧
      b >>> 6 < 4 ∧ b &&& 63 < 64 ∧ (b &&& 3) <<< 4 < 64 ∧ (b &&& 15) <<< 2 < 64 := by
  decide

lemma b64_pack1 : ∀ x < 4, ∀ y < 16,
    x <<< 4 ||| y < 64 ∧ ((x <<< 4 ||| y) &&& 48) >>> 4 = x ∧
      (x <<< 4 ||| y) &&& 15 = y := by decide

lemma b64_pack2 : ∀ x < 16, ∀ y < 4,
    x <<< 2 ||| y < 64 ∧ ((x <<< 2 ||| y) &&& 60) >>> 2 = x ∧
      (x <<< 2 ||| y) &&& 3 = y := by decide

lemma b64_split : ∀ b < 256,
    (b >>> 2) <<< 2 ||| (b &&& 3) = b ∧ (b >>> 4) <<< 4 ||| (b &&& 15) = b ∧
      (b >>> 6) <<< 6 ||| (b &&& 63) = b ∧ (b &&& 63) &&& 63 = b &&& 63 ∧
      (((b &&& 3) <<< 4) &&& 48) >>> 4 = b &&& 3 ∧ ((b &&& 3) <<< 4) &&& 15 = 0 ∧
      (((b &&& 15) <<< 2) &&& 60) >>> 2 = b &&& 15 ∧ ((b &&& 15) <<< 2) &&& 3 = 0 := by
  decide

lemma b64EncodeGo_mod : ∀ (l : List ℕ) (i j w : ℕ), i % 6 = j % 6 →
    Base64.encodeGo l i w = Base64.encodeGo l j w := by
  intro l
  induction l with
  | nil => intros; rfl
  | cons b rest ih =>
    intro i j w h
    have h8 : (i + 8) % 6 = (j + 8) % 6 := by omega
    simp only [Base64.encodeGo, h]
    rw [ih (i + 8) (j + 8) ((b &&& 3) <<< 4) h8, ih (i + 8) (j + 8) ((b &&& 15) <<< 2) h8,
      ih (i + 8) (j + 8) w h8]

lemma b64EncodeGo_w0 (b : ℕ) (rest : List ℕ) (i w w' : ℕ) (h : i % 6 = 0) :
    Base64.encodeGo (b :: rest) i w = Base64.encodeGo (b :: rest) i w' := by
  simp only [Base64.encodeGo, if_pos h]

lemma b64DecodeGo_w0 (cs : List ℕ) (w w' : ℕ) :
    Base64.decodeGo cs 0 w = Base64.decodeGo cs 0 w' := by
  cases cs with
  | nil => rfl
  | cons c rest =>
    by_cases hc : c = 61
    · simp only [Base64.decodeGo, if_pos hc]
    · simp [Base64.decodeGo, if_neg hc]

lemma b64_encode_cons3 (b c d : ℕ) (rest : List ℕ) :
    Base64.encode (b :: c :: d :: rest) =
      Base64.from_u8 (b >>> 2) :: Base64.from_u8 ((b &&& 3) <<< 4 ||| c >>> 4) ::
      Base64.from_u8 ((c &&& 15) <<< 2 ||| d >>> 6) :: Base64.from_u8 (d &&& 63) ::
      Base64.encode rest := by
  have hgo : Base64.encodeGo (b :: c :: d :: rest) 0 0 =
      (Base64.from_u8 (b >>> 2) :: Base64.from_u8 ((b &&& 3) <<< 4 ||| c >>> 4) ::
       Base64.from_u8 ((c &&& 15) <<< 2 ||| d >>> 6) :: Base64.from_u8 (d &&& 63) ::
       (Base64.encodeGo rest 0 ((c &&& 15) <<< 2)).1,
       (Base64.encodeGo rest 0 ((c &&& 15) <<< 2)).2) := by
    simp only [Base64.encodeGo]
    norm_num
    rw [b64EncodeGo_mod rest 24 0 ((c &&& 15) <<< 2) (by norm_num)]
    exact ⟨rfl, rfl⟩
  simp only [Base64.encode, hgo, List.length_cons]
  cases rest with
  | nil => simp [Base64.encodeGo]
  | cons r0 rs =>
    rw [b64EncodeGo_w0 r0 rs 0 ((c &&& 15) <<< 2) 0 (by norm_num)]
    simp only [List.length_cons]
    have hpad : ((rs.length + 1 + 1 + 1 + 1) * 8 + 5) / 6 * 6 - (rs.length + 1 + 1 + 1 + 1) * 8
        = ((rs.length + 1) * 8 + 5) / 6 * 6 - (rs.length + 1) * 8 := by omega
    rw [hpad]
    by_cases hp : ((rs.length + 1) * 8 + 5) / 6 * 6 - (rs.length + 1) * 8 = 0
    · simp [hp]
    · simp [hp]

lemma b64_decode_chunk (b c d : ℕ) (hb : b < 256) (hc : c < 256) (hd : d < 256)
    (cs : List ℕ) :
    Base64.decodeGo (Base64.from_u8 (b >>> 2) ::
        Base64.from_u8 ((b &&& 3) <<< 4 ||| c >>> 4) ::
        Base64.from_u8 ((c &&& 15) <<< 2 ||| d >>> 6) ::
        Base64.from_u8 (d &&& 63) :: cs) 0 0 =
      b :: c :: d :: Base64.decodeGo cs 0 0 := by
  obtain ⟨hb1, hb2, hb3, hb4, hb5, hb6, hb7, hb8⟩ := b64_bounds b hb
  obtain ⟨hc1, hc2, hc3, hc4, hc5, hc6, hc7, hc8⟩ := b64_bounds c hc
  obtain ⟨hd1, hd2, hd3, hd4, hd5, hd6, hd7, hd8⟩ := b64_bounds d hd
  obtain ⟨m0, n0, -⟩ := b64_map_spec (b >>> 2) hb1
  obtain ⟨m1, n1, -⟩ := b64_map_spec ((b &&& 3) <<< 4 ||| c >>> 4) (b64_pack1 _ hb2 _ hc3).1
  obtain ⟨m2, n2, -⟩ := b64_map_spec ((c &&& 15) <<< 2 ||| d >>> 6) (b64_pack2 _ hc4 _ hd5).1
  obtain ⟨m3, n3, -⟩ := b64_map_spec (d &&& 63) hd6
  simp only [Base64.decodeGo, if_neg n0, if_neg n1, if_neg n2, if_neg n3, m0, m1, m2, m3]
  norm_num
  rw [(b64_pack1 _ hb2 _ hc3).2.1, (b64_pack1 _ hb2 _ hc3).2.2,
    (b64_pack2 _ hc4 _ hd5).2.1, (b64_pack2 _ hc4 _ hd5).2.2,
    (b64_split b hb).1, (b64_split c hc).2.1, (b64_split d hd).2.2.2.1,
    (b64_split d hd).2.2.1, b64DecodeGo_w0 cs d 0]
  exact ⟨rfl, rfl, rfl, rfl⟩

lemma b64_encode_one (b : ℕ) : Base64.encode [b] =
    [Base64.from_u8 (b >>> 2), Base64.from_u8 ((b &&& 3) <<< 4), 61, 61] := by
  simp [Base64.encode, Base64.encodeGo, List.replicate]

lemma b64_encode_two (b c : ℕ) : Base64.encode [b, c] =
    [Base64.from_u8 (b >>> 2), Base64.from_u8 ((b &&& 3) <<< 4 ||| c >>> 4),
      Base64.from_u8 ((c &&& 15) <<< 2), 61] := by
  simp [Base64.encode, Base64.encodeGo, List.replicate]

lemma b64_decode_one (b : ℕ) (hb : b < 256) :
    Base64.decode [Base64.from_u8 (b >>> 2), Base64.from_u8 ((b &&& 3) <<< 4), 61, 61] =
      [b] := by
  obtain ⟨hb1, hb2, hb3, hb4, hb5, hb6, hb7, hb8⟩ := b64_bounds b hb
  obtain ⟨m0, n0, -⟩ := b64_map_spec (b >>> 2) hb1
  obtain ⟨m1, n1, -⟩ := b64_map_spec ((b &&& 3) <<< 4) hb7
  show Base64.decodeGo _ 0 0 = _
  simp only [Base64.decodeGo, if_neg n0, if_neg n1, m0, m1]
  norm_num
  rw [(b64_split b hb).2.2.2.2.1, (b64_split b hb).1]

lemma b64_decode_two (b c : ℕ) (hb : b < 256) (hc : c < 256) :
    Base64.decode [Base64.from_u8 (b >>> 2), Base64.from_u8 ((b &&& 3) <<< 4 ||| c >>> 4),
      Base64.from_u8 ((c &&& 15) <<< 2), 61] = [b, c] := by
  obtain ⟨hb1, hb2, hb3, hb4, hb5, hb6, hb7, hb8⟩ := b64_bounds b hb
  obtain ⟨hc1, hc2, hc3, hc4, hc5, hc6, hc7, hc8⟩ := b64_bounds c hc
  obtain ⟨m0, n0, -⟩ := b64_map_spec (b >>> 2) hb1
  obtain ⟨m1, n1, -⟩ := b64_map_spec ((b &&& 3) <<< 4 ||| c >>> 4) (b64_pack1 _ hb2 _ hc3).1
  obtain ⟨m2, n2, -⟩ := b64_map_spec ((c &&& 15) <<< 2) hc8
  show Base64.decodeGo _ 0 0 = _
  simp only [Base64.decodeGo, if_neg n0, if_neg n1, if_neg n2, m0, m1, m2]
  norm_num
  rw [(b64_pack1 _ hb2 _ hc3).2.1, (b64_pack1 _ hb2 _ hc3).2.2,
    (b64_split c hc).2.2.2.2.2.2.1, (b64_split b hb).1, (b64_split c hc).2.1]
  exact ⟨rfl, rfl⟩

lemma b64_decode_encode_aux : ∀ (l : List ℕ), (∀ x ∈ l, x < 256) →
    Base64.decode (Base64.encode l) = l
  | [], _ => rfl
  | [b], h => by
    rw [b64_encode_one]
    exact b64_decode_one b (h b (by simp))
  | [b, c], h => by
    rw [b64_encode_two]
    exact b64_decode_two b c (h b (by simp)) (h c (by simp))
  | b :: c :: d :: rest, h => by
    rw [b64_encode_cons3]
    show Base64.decodeGo _ 0 0 = _
    rw [b64_decode_chunk b c d (h b (by simp)) (h c (by simp)) (h d (by simp))
      (Base64.encode rest)]
    have hrec := b64_decode_encode_aux rest (fun x hx => h x (by simp [hx]))
    rw [show Base64.decodeGo (Base64.encode rest) 0 0 = Base64.decode (Base64.encode rest)
      from rfl, hrec]
termination_by l => l.length

/-- C1: for every byte buffer `x`, Base64 decoding the Base64 encoding of `x`
yields `x` again. -/
theorem base64_decode_encode (x : List ℕ) (h : ∀ b ∈ x, b < 256) :
    Base64.decode (Base64.encode x) = x :=
  b64_decode_encode_aux x h

/-- Witness for `base64_decode_encode` at `x = [77, 97, 110, 255, 0]`. -/
theorem base64_decode_encode_witness :
    (∀ b ∈ ([77, 97, 110, 255, 0] : List ℕ), b < 256) ∧
      Base64.decode (Base64.encode [77, 97, 110, 255, 0]) = [77, 97, 110, 255, 0] :=
  ⟨by decide, base64_decode_encode [77, 97, 110, 255, 0] (by decide)⟩

/-! #### Alphabet invariants of the encoders -/

lemma hex_encode_byte_lt (x : ℕ) : (x &&& 240) >>> 4 < 16 ∧ x &&& 15 < 16 := by
  have h1 : x &&& 240 ≤ 240 := Nat.and_le_right
  have h2 : x &&& 15 ≤ 15 := Nat.and_le_right
  have h3 : (x &&& 240) >>> 4 = (x &&& 240) / 2 ^ 4 := Nat.shiftRight_eq_div_pow _ _
  norm_num at h3
  omega

lemma hex_encode_valid : ∀ (l : List ℕ), Hex.string_is (Hex.encode l) = true := by
  intro l
  induction l with
  | nil => rfl
  | cons x rest ih =>
    obtain ⟨h1, h2⟩ := hex_encode_byte_lt x
    show Hex.string_is (Hex.from_u8 _ :: Hex.from_u8 _ :: Hex.encode rest) = true
    rw [Hex.string_is, if_pos (hex_nibble _ h1).2.2, Hex.string_is,
      if_pos (hex_nibble _ h2).2.2]
    exact ih

lemma b64_is_string_of_all : ∀ (l : List ℕ), (∀ c ∈ l, Base64.is c = true) →
    Base64.is_string l = true := by
  intro l
  induction l with
  | nil => intro _; rfl
  | cons x rest ih =>
    intro h
    rw [Base64.is_string, if_pos (h x (List.mem_cons_self _ _))]
    exact ih (fun c hc => h c (List.mem_cons_of_mem _ hc))

lemma b64EncodeGo_valid : ∀ (l : List ℕ) (i w : ℕ), (∀ x ∈ l, x < 256) → w < 64 →
    (∀ ch ∈ (Base64.encodeGo l i w).1, Base64.is ch = true) ∧
      (Base64.encodeGo l i w).2 < 64 := by
  intro l
  induction l with
  | nil =>
    intro i w _ hw
    constructor
    · intro ch hch
      simp [Base64.encodeGo] at hch
    · simpa [Base64.encodeGo] using hw
  | cons b rest ih =>
    intro i w hl hw
    have hb := hl b (List.mem_cons_self _ _)
    obtain ⟨hb1, hb2, hb3, hb4, hb5, hb6, hb7, hb8⟩ := b64_bounds b hb
    have hrest : ∀ x ∈ rest, x < 256 := fun x hx => hl x (List.mem_cons_of_mem _ hx)
    by_cases h0 : i % 6 = 0
    · simp only [Base64.encodeGo, if_pos h0]
      have hr := ih (i + 8) ((b &&& 3) <<< 4) hrest hb7
      refine ⟨?_, hr.2⟩
      intro ch hch
      rcases List.mem_cons.mp hch with rfl | hm
      · exact (b64_map_spec _ hb1).2.2
      · exact hr.1 ch hm
    · by_cases h2 : i % 6 = 2
      · simp only [Base64.encodeGo, if_neg h0, if_pos h2]
        have hr := ih (i + 8) ((b &&& 15) <<< 2) hrest hb8
        have harg : w ||| b >>> 4 < 64 := or_lt_64 hw (by omega)
        refine ⟨?_, hr.2⟩
        intro ch hch
        rcases List.mem_cons.mp hch with rfl | hm
        · exact (b64_map_spec _ harg).2.2
        · exact hr.1 ch hm
      · by_cases h4 : i % 6 = 4
        · simp only [Base64.encodeGo, if_neg h0, if_neg h2, if_pos h4]
          have hr := ih (i + 8) w hrest hw
          have harg : w ||| b >>> 6 < 64 := or_lt_64 hw (by omega)
          refine ⟨?_, hr.2⟩
          intro ch hch
          rcases List.mem_cons.mp hch with rfl | hm
          · exact (b64_map_spec _ harg).2.2
          · rcases List.mem_cons.mp hm with rfl | hm2
            · exact (b64_map_spec _ hb6).2.2
            · exact hr.1 ch hm2
        · simp only [Base64.encodeGo, if_neg h0, if_neg h2, if_neg h4]
          exact ⟨fun ch hch => absurd hch (by simp), hw⟩

/-- C10: the text produced by `Hex::encode` satisfies the hex alphabet
invariant and the text produced by `Base64::encode` satisfies the base64
alphabet invariant; encoding never produces a representation its own
validating constructor would reject. -/
theorem encode_alphabet_invariant (b : List ℕ) (h : ∀ x ∈ b, x < 256) :
    Hex.string_is (Hex.encode b) = true ∧ Base64.is_string (Base64.encode b) = true := by
  refine ⟨hex_encode_valid b, ?_⟩
  have hv := b64EncodeGo_valid b 0 0 h (by norm_num)
  apply b64_is_string_of_all
  intro c hc
  simp only [Base64.encode] at hc
  rcases Classical.em ((b.length * 8 + 5) / 6 * 6 - b.length * 8 ≠ 0) with hp | hp
  · rw [if_pos hp] at hc
    rcases List.mem_append.mp hc with h1 | h2
    · rcases List.mem_append.mp h1 with h3 | h4
      · exact hv.1 c h3
      · have : c = Base64.from_u8 (Base64.encodeGo b 0 0).2 := by simpa using h4
        subst this
        exact (b64_map_spec _ hv.2).2.2
    · have : c = 61 := List.eq_of_mem_replicate h2
      subst this
      decide
  · rw [if_neg hp] at hc
    exact hv.1 c hc

/-- Witness for `encode_alphabet_invariant` at `b = [0, 171, 255]`. -/
theorem encode_alphabet_invariant_witness :
    (∀ x ∈ ([0, 171, 255] : List ℕ), x < 256) ∧
      Hex.string_is (Hex.encode [0, 171, 255]) = true ∧
      Base64.is_string (Base64.encode [0, 171, 255]) = true :=
  ⟨by decide, encode_alphabet_invariant [0, 171, 255] (by decide)⟩

/-! #### Key-length estimator -/

/-- C5 (code defect): on the ciphertext `[0, 0]` with range `[1, 41]`
(`top_n = 2`), the selection loop records candidate length 1 twice: the
still-unselected check `!guesses.contains(&i)` tests the candidate index `i`
against the list of recorded lengths `i + llim`, so for `llim ≥ 1` a recorded
candidate is not excluded from later rounds. -/
theorem find_key_len_duplicate : find_key_len [0, 0] 1 41 = [1, 1] := by decide

/-- C6 (code defect): on the empty ciphertext with range `[1, 5]` every
candidate is disqualified with an infinite distance, and the scan's untouched
initialiser `(INFINITY, 0)` makes the function return `[0]` — a value outside
the inclusive range `[1, 5]`. -/
theorem find_key_len_out_of_range :
    find_key_len [] 1 5 = [0] ∧ ∀ x ∈ find_key_len [] 1 5, ¬(1 ≤ x ∧ x ≤ 5) := by
  decide

end RxorTools
